import Mathlib

/-!
# Verification of the Dos (Pusoy Dos) rules engine

Shallow embedding of `src/dos/Game.ts`: the card / play data model, the
combination evaluator (`Play.value` and its helpers), the round state
machine (`setup`, the `play` and `pass` moves, `getNext`), together with
proofs settling the specification claims about them.

Conventions of the embedding:
* JS numbers are `Nat` (all quantities here are small non-negative ints).
* `String.indexOf` over the constant rank/suit strings is `List.indexOf`
  over the corresponding character lists (they agree on characters that
  occur in the string, which is the only case the claims exercise; card
  validity is tracked by `Card.valid`).
* The in-place `Array.sort` with comparator `(a, b) => a.value > b.value
  ? 1 : -1` is modelled by `List.insertionSort` on `·.value ≤ ·.value`:
  both produce the (unique, since `Card.value` is injective on the deck)
  ascending-by-value rearrangement.
* `INVALID_MOVE` returns become the `MoveResult.invalid` constructor and
  the (purely functional) updated state is returned in `MoveResult.ok`.
-/

/-- Source: `const RANKS = '3456789TJQKA2'` -/
def RANKS : List Char := ['3', '4', '5', '6', '7', '8', '9', 'T', 'J', 'Q', 'K', 'A', '2']

/-- Source: `const SUITS = 'CSHD'` -/
def SUITS : List Char := ['C', 'S', 'H', 'D']

/-- Source: `enum Combi { None, Straight, Flush, FullHouse, Quadro, StraightFlush }` -/
inductive Combi where
  | none
  | straight
  | flush
  | fullHouse
  | quadro
  | straightFlush
deriving DecidableEq, Repr

/-- The numeric value TypeScript assigns to each `Combi` enum member. -/
def Combi.toNat : Combi → Nat
  | .none => 0
  | .straight => 1
  | .flush => 2
  | .fullHouse => 3
  | .quadro => 4
  | .straightFlush => 5

/-- Source: `class Card { rank: string; suit: string }` -/
structure Card where
  rank : Char
  suit : Char
deriving DecidableEq, Repr

/-- Source: `get value() { return RANKS.indexOf(this.rank) * 4 + SUITS.indexOf(this.suit) }` -/
def Card.value (c : Card) : Nat :=
  RANKS.indexOf c.rank * 4 + SUITS.indexOf c.suit

/-- A card whose rank and suit characters actually occur in the `RANKS` /
`SUITS` constants; exactly the 52 cards of the deck. -/
def Card.valid (c : Card) : Prop :=
  c.rank ∈ RANKS ∧ c.suit ∈ SUITS

instance (c : Card) : Decidable c.valid := by
  unfold Card.valid; infer_instance

/-- Source: `static newDeck()`: one card per rank/suit combination, rank-major,
exactly as the nested `for` loops push them. -/
def Card.newDeck : List Card :=
  RANKS.flatMap fun r => SUITS.map fun s => ⟨r, s⟩

/-- Source: `static lowest = Card.fromString('3C')` -/
def Card.lowest : Card := ⟨'3', 'C'⟩

/-- Source: `class Play { cards: Card[]; player?: number }`.  The `cards` field
holds the ascending-by-value sorted sequence produced by the constructor. -/
structure Play where
  cards : List Card
  player : Option Nat
deriving DecidableEq, Repr

/-- The `Play` constructor: sorts the cards in place, ascending by value. -/
def Play.make (cards : List Card) (player : Option Nat) : Play :=
  ⟨cards.insertionSort (fun a b => a.value ≤ b.value), player⟩

/-- Source: `get withSameRank()`: the set of rank frequencies, i.e. for each rank
occurring among the cards, how many cards carry it. -/
def Play.withSameRank (p : Play) : List Nat :=
  (p.cards.map Card.rank).dedup.map fun r => p.cards.countP fun c => c.rank == r

/-- JS truthiness of a possibly-`undefined` number: `undefined` and `0`
are falsy, everything else truthy. -/
def jsTruthy : Option Nat → Bool
  | some v => v != 0
  | none => false

/-- The rank renumbering local to `straight()`:
`num = (card) => (RANKS.indexOf(card.rank) + 2) % 13`.
It makes `A = 0`, `2 = 1`, `3 = 2`, …, `K = 12`. -/
def num (c : Card) : Nat := (RANKS.indexOf c.rank + 2) % 13

/-- Source: `Play.straight()`: 5 distinct `num` values that are consecutive once
sorted (value of the highest-`num` card), else, if the lowest `num` is the
Ace, retry with the Ace counted as 13 (value of the Ace card). -/
def Play.straight (p : Play) : Option Nat :=
  let nums := (p.cards.map num).dedup
  if nums.length = 5 then
    match nums.insertionSort (· ≤ ·) with
    | [n0, n1, n2, n3, n4] =>
      if n0 + 4 = n4 then
        -- Use the value of the highest (by num) card.
        (p.cards.find? fun c => num c == n4).map Card.value
      else if n0 = 0 then
        -- Let Ace be a high card: nums[0] = 13, re-sort, re-test.
        match [13, n1, n2, n3, n4].insertionSort (· ≤ ·) with
        | [m0, _, _, _, m4] =>
          if m0 + 4 = m4 then
            (p.cards.find? fun c => num c == 0).map Card.value
          else none
        | _ => none
      else none
    | _ => none
  else none

/-- Source: `Play.flush()`: all five cards share the first card's suit; value
`SUITS.indexOf(cards[4].suit) * 13 + RANKS.indexOf(cards[4].rank)`.
(Only ever invoked on 5-card plays, hence the 5-element pattern.) -/
def Play.flush (p : Play) : Option Nat :=
  match p.cards with
  | [c0, c1, c2, c3, c4] =>
    if [c0, c1, c2, c3, c4].all fun c => c.suit == c0.suit then
      some (SUITS.indexOf c4.suit * 13 + RANKS.indexOf c4.rank)
    else none
  | _ => none

/-- Source: `Play.quadro()`: some rank occurs four times; cards being sorted, the
middle cards belong to the quad, so `cards[1].value` is returned. -/
def Play.quadro (p : Play) : Option Nat :=
  if 4 ∈ p.withSameRank then (p.cards.get? 1).map Card.value else none

/-- Source: `Play.fullHouse()`: rank frequencies contain both a 2 and a 3; the
sorted middle card always belongs to the trio, so `cards[2].value`. -/
def Play.fullHouse (p : Play) : Option Nat :=
  if 2 ∈ p.withSameRank ∧ 3 ∈ p.withSameRank then
    (p.cards.get? 2).map Card.value
  else none

/-- The IIFE inside `get value()` classifying a 5-card play: pick the
combination kind and its within-kind comparison value, with JS truthiness
deciding each test. -/
def Play.classify5 (p : Play) : Combi × Nat :=
  if jsTruthy p.straight then
    if jsTruthy p.flush then (.straightFlush, p.straight.getD 0)
    else (.straight, p.straight.getD 0)
  else if jsTruthy p.quadro then (.quadro, p.quadro.getD 0)
  else if jsTruthy p.fullHouse then (.fullHouse, p.fullHouse.getD 0)
  else if jsTruthy p.flush then (.flush, p.flush.getD 0)
  else (.none, 0)

/-- Source: `get value()`: singles use the card value, pairs/trios require the
matching rank frequency (anchor `cards[1]` resp. `cards[0]`), five-card
plays use `combi * 1000 + val`, everything else is `null`. -/
def Play.value (p : Play) : Option Nat :=
  match p.cards.length with
  | 1 => (p.cards.get? 0).map Card.value
  | 2 =>
    if 2 ∈ p.withSameRank then (p.cards.get? 1).map Card.value else none
  | 3 =>
    if 3 ∈ p.withSameRank then (p.cards.get? 0).map Card.value else none
  | 5 =>
    let cv := p.classify5
    if cv.1 = Combi.none then none else some (cv.1.toNat * 1000 + cv.2)
  | _ => none

/-! ## Round state machine -/

/-- Source: `type State`: hands are stored per seat (seat `i` at index `i`), card
strings being identified with the cards they denote (the two-character
`{rank}{suit}` serialization is injective on deck cards). -/
structure State where
  players : List (List Card)
  remaining : List Nat
  firstTurn : Nat
  hasStarted : Bool
  discarded : List (List Card)
  lastPlay : Option Play
  winners : List Nat
deriving DecidableEq, Repr

/-- Outcome of a boardgame.io move: `INVALID_MOVE`, or the mutated state. -/
inductive MoveResult where
  | invalid
  | ok (G : State)
deriving DecidableEq, Repr

/-- The discard loop of `play`:
`playString.map(card => hand.splice(hand.indexOf(card), 1).pop()!)`.
`splice(indexOf(card), 1)` removes the first occurrence when the card is
present; when it is absent `indexOf` is `-1` and `splice(-1, 1)` removes
the *last* element of the hand (on an empty hand it removes nothing and
`pop()` yields `undefined`, which carries no card into the discard).
Returns the remaining hand and the removed cards. -/
def removeCards (hand : List Card) : List Card → List Card × List Card
  | [] => (hand, [])
  | c :: rest =>
    let step : List Card × List Card :=
      if c ∈ hand then (hand.erase c, [c])
      else (hand.dropLast, hand.getLast?.toList)
    let next := removeCards step.1 rest
    (next.1, step.2 ++ next.2)

/-- The accepting tail of the `play` move: remove the played cards from the
hand, push them on the discard pile, install the new `lastPlay`, record the
seat as a winner (clearing `lastPlay`) if its hand is now empty, and mirror
the hand size into `remaining`. -/
def finishPlay (G : State) (current : Nat) (play : Play) : MoveResult :=
  let hand := G.players.getD current []
  let res := removeCards hand play.cards
  let G1 : State :=
    { G with
      players := G.players.set current res.1
      discarded := G.discarded ++ [res.2]
      lastPlay := some play }
  let G2 : State :=
    if res.1.length = 0 then
      { G1 with winners := G1.winners ++ [current], lastPlay := none }
    else G1
  .ok { G2 with remaining := G2.remaining.set current res.1.length }

/-- Source: `Dos.moves.play`: evaluate the submitted cards, require them to be in
the hand, enforce the first-move / beat-the-table rules, then discard. -/
def playMove (G : State) (current : Nat) (cards : List Card) : MoveResult :=
  let hand := G.players.getD current []
  let play := Play.make cards (some current)
  let playString := play.cards
  match play.value with
  | none => .invalid
  | some playValue =>
    if ¬ (playString.all fun c => hand.contains c) then .invalid
    else
      match G.lastPlay with
      | none =>
        if G.hasStarted = false then
          if ¬ playString.contains Card.lowest then .invalid
          else finishPlay { G with hasStarted := true } current play
        else finishPlay G current play
      | some lp =>
        if lp.cards.length ≠ play.cards.length then .invalid
        else if playValue < lp.value.getD 0 then .invalid
        else finishPlay G current play

/-- The body of `getNext`'s `while (true)` loop, made total by an explicit
fuel argument: candidate `(pos + i) % numPlayers` is skipped while it is a
recorded winner.  `none` means the fuel ran out, i.e. the JS loop has not
exited within that many iterations. -/
def getNextFuel (winners : List Nat) (numPlayers pos : Nat) : Nat → Nat → Option Nat
  | 0, _ => none
  | fuel + 1, i =>
    let nextPlayer := (pos + i) % numPlayers
    if nextPlayer ∈ winners then getNextFuel winners numPlayers pos fuel (i + 1)
    else some nextPlayer

/-- Source: `function getNext(G, ctx)` for the four-player game: four iterations
always suffice when any seat is still active, since the four candidates
`(pos+1) % 4 … (pos+4) % 4` exhaust all seats. -/
def getNext (winners : List Nat) (pos : Nat) : Option Nat :=
  getNextFuel winners 4 pos 4 1

/-- Source: `Dos.moves.pass`: reject on an empty table; otherwise clear `lastPlay`
when the skip-aware next seat is the owner of `lastPlay`.  The outer
`none` is divergence of `getNext` (every seat a winner), in which case the
JS never returns at all. -/
def passMove (G : State) (current : Nat) : Option MoveResult :=
  match G.lastPlay with
  | none => some .invalid
  | some lp =>
    match getNext G.winners current with
    | none => none
    | some n =>
      some (.ok (if lp.player = some n then { G with lastPlay := none } else G))

/-- The deal loop of `setup`, fuelled (the fuel is an iteration bound; one
iteration consumes at least one card, so `deck.length` suffices):
`while (deck.length > 0) { hand = deck.splice(0, 13); … }`. -/
def dealGo : Nat → List Card → List (List Card)
  | 0, _ => []
  | fuel + 1, deck =>
    if deck.length = 0 then []
    else deck.take 13 :: dealGo fuel (deck.drop 13)

/-- The hands dealt from a deck, 13 cards at a time. -/
def deal (deck : List Card) : List (List Card) :=
  dealGo deck.length deck

/-- The `firstTurn` accumulator of the deal loop: the (last) seat whose
hand contains a card of value `Card.lowest.value`, defaulting to `0`. -/
def findFirstTurn (hands : List (List Card)) : Nat :=
  (hands.enum.foldl
    (fun acc ih =>
      if ih.2.any fun c => c.value == Card.lowest.value then ih.1 else acc)
    0)

/-- Source: `Dos.setup`: deal a (shuffled) deck into 13-card hands and initialise
the round state.  The shuffle itself is the injected random collaborator,
so the deck is a parameter here; reachability quantifies it over all
permutations of the fresh deck. -/
def setup (deck : List Card) : State :=
  let players := deal deck
  { players := players
    remaining := players.map List.length
    firstTurn := findFirstTurn players
    hasStarted := false
    discarded := []
    lastPlay := none
    winners := [] }

/-- States reachable from a fresh deal by accepted `play` / `pass` moves
(by any seat: a superset of the turn-ordered traces, so invariants proved
over it hold a fortiori for actual games). -/
inductive Reachable : State → Prop
  | setup (deck : List Card) (hperm : deck.Perm Card.newDeck) :
      Reachable (setup deck)
  | play (G G' : State) (seat : Nat) (cards : List Card) :
      Reachable G → seat < 4 → playMove G seat cards = .ok G' → Reachable G'
  | pass (G G' : State) (seat : Nat) :
      Reachable G → seat < 4 → passMove G seat = some (.ok G') → Reachable G'

/-! ## Helper lemmas -/

lemma getNextFuel_step_mem {winners : List Nat} {numPlayers pos i : Nat} (fuel : Nat)
    (h : (pos + i) % numPlayers ∈ winners) :
    getNextFuel winners numPlayers pos (fuel + 1) i =
      getNextFuel winners numPlayers pos fuel (i + 1) := by
  simp [getNextFuel, h]

lemma getNextFuel_step_not_mem {winners : List Nat} {numPlayers pos i : Nat} (fuel : Nat)
    (h : (pos + i) % numPlayers ∉ winners) :
    getNextFuel winners numPlayers pos (fuel + 1) i = some ((pos + i) % numPlayers) := by
  simp [getNextFuel, h]

/-- Any value `getNext` returns is an active (non-winner) seat. -/
lemma getNextFuel_not_winner {winners : List Nat} {numPlayers pos : Nat} :
    ∀ {fuel i n : Nat}, getNextFuel winners numPlayers pos fuel i = some n → n ∉ winners := by
  intro fuel
  induction fuel with
  | zero => intro i n h; simp [getNextFuel] at h
  | succ fuel ih =>
    intro i n h
    by_cases hm : (pos + i) % numPlayers ∈ winners
    · rw [getNextFuel_step_mem fuel hm] at h
      exact ih h
    · rw [getNextFuel_step_not_mem fuel hm] at h
      cases h
      exact hm

/-! ## C10: termination and correctness of `getNext` -/

/-- Claim C10. Whenever some seat among the four is not yet a winner, the
`getNext` loop terminates (within its four-candidate budget) and returns
the first seat strictly after the current position in rotation order that
is not in `winners`; if all four seats were winners the loop body would
never exit, whatever the iteration bound. -/
theorem getNext_first_active_seat (winners : List Nat) (pos : Nat) :
    ((∃ s, s < 4 ∧ s ∉ winners) →
      ∃ n i, getNext winners pos = some n ∧ 1 ≤ i ∧ i ≤ 4 ∧ n = (pos + i) % 4 ∧
        n ∉ winners ∧ ∀ j, 1 ≤ j → j < i → (pos + j) % 4 ∈ winners) ∧
    ((∀ s, s < 4 → s ∈ winners) →
      ∀ fuel i, getNextFuel winners 4 pos fuel i = none) := by
  constructor
  · rintro ⟨s, hs4, hsw⟩
    by_cases m1 : (pos + 1) % 4 ∈ winners
    · by_cases m2 : (pos + 2) % 4 ∈ winners
      · by_cases m3 : (pos + 3) % 4 ∈ winners
        · by_cases m4 : (pos + 4) % 4 ∈ winners
          · exfalso
            have hcase : s = (pos + 1) % 4 ∨ s = (pos + 2) % 4 ∨
                s = (pos + 3) % 4 ∨ s = (pos + 4) % 4 := by omega
            rcases hcase with rfl | rfl | rfl | rfl
            · exact hsw m1
            · exact hsw m2
            · exact hsw m3
            · exact hsw m4
          · refine ⟨(pos + 4) % 4, 4, ?_, by omega, by omega, rfl, m4, ?_⟩
            · rw [getNext, getNextFuel_step_mem _ m1, getNextFuel_step_mem _ m2,
                getNextFuel_step_mem _ m3, getNextFuel_step_not_mem _ m4]
            · intro j h1 h2
              interval_cases j <;> assumption
        · refine ⟨(pos + 3) % 4, 3, ?_, by omega, by omega, rfl, m3, ?_⟩
          · rw [getNext, getNextFuel_step_mem _ m1, getNextFuel_step_mem _ m2,
              getNextFuel_step_not_mem _ m3]
          · intro j h1 h2
            interval_cases j <;> assumption
      · refine ⟨(pos + 2) % 4, 2, ?_, by omega, by omega, rfl, m2, ?_⟩
        · rw [getNext, getNextFuel_step_mem _ m1, getNextFuel_step_not_mem _ m2]
        · intro j h1 h2
          interval_cases j <;> assumption
    · refine ⟨(pos + 1) % 4, 1, ?_, by omega, by omega, rfl, m1, ?_⟩
      · rw [getNext, getNextFuel_step_not_mem _ m1]
      · intro j h1 h2
        omega
  · intro hall fuel
    induction fuel with
    | zero => intro i; simp [getNextFuel]
    | succ fuel ih =>
      intro i
      have hm : (pos + i) % 4 ∈ winners := hall _ (Nat.mod_lt _ (by omega))
      rw [getNextFuel_step_mem fuel hm]
      exact ih (i + 1)

/-- Witness for C10: with every seat a winner, seven loop iterations
(or any other bound) fail to exit; the all-winner hypothesis is concrete. -/
theorem getNext_first_active_seat_witness :
    getNextFuel [0, 1, 2, 3] 4 0 7 1 = none :=
  (getNext_first_active_seat [0, 1, 2, 3] 0).2 (by decide) 7 1

/-! ## Sorting helpers for small plays -/

lemma insertionSort_two (a b : Card) :
    [a, b].insertionSort (fun x y => x.value ≤ y.value) =
      if a.value ≤ b.value then [a, b] else [b, a] := by
  simp [List.insertionSort, List.orderedInsert]

lemma insertionSort_three (a b c : Card) :
    [a, b, c].insertionSort (fun x y => x.value ≤ y.value) =
      if b.value ≤ c.value then
        (if a.value ≤ b.value then [a, b, c]
         else if a.value ≤ c.value then [b, a, c] else [b, c, a])
      else
        (if a.value ≤ c.value then [a, c, b]
         else if a.value ≤ b.value then [c, a, b] else [c, b, a]) := by
  by_cases h1 : b.value ≤ c.value <;> by_cases h2 : a.value ≤ b.value <;>
    by_cases h3 : a.value ≤ c.value <;>
    simp [List.insertionSort, List.orderedInsert, h1, h2, h3] <;> omega

lemma value_pair (x y : Card) (pl : Option Nat) :
    (Play.value ⟨[x, y], pl⟩) = if x.rank = y.rank then some y.value else none := by
  by_cases hr : x.rank = y.rank
  · simp [Play.value, Play.withSameRank, hr, List.dedup_cons_of_mem, List.countP_cons]
  · simp [Play.value, Play.withSameRank, hr, List.dedup_cons_of_not_mem, List.countP_cons,
      Ne.symm hr]

lemma value_trio (x y z : Card) (pl : Option Nat) :
    (Play.value ⟨[x, y, z], pl⟩) =
      if x.rank = y.rank ∧ y.rank = z.rank then some x.value else none := by
  by_cases h1 : x.rank = y.rank <;> by_cases h2 : y.rank = z.rank <;>
    by_cases h3 : x.rank = z.rank <;>
    simp [Play.value, Play.withSameRank, List.countP_cons, h1, h2, h3,
      List.dedup_cons_of_mem, List.dedup_cons_of_not_mem] <;>
    simp_all [eq_comm]

/-! ## C5: pairs and triples -/

/-- Claim C5. A 2-card play evaluates exactly when both cards share rank, to
the value of the higher-valued card; a 3-card play evaluates exactly when
all three share rank, to the value of the lowest-valued (lowest-suited)
card; any 2- or 3-card set with mismatched ranks evaluates to `null`. -/
theorem pair_triple_eval (c1 c2 d1 d2 d3 : Card) :
    ((Play.make [c1, c2] none).value =
      if c1.rank = c2.rank then some (max c1.value c2.value) else none) ∧
    ((Play.make [d1, d2, d3] none).value =
      if d1.rank = d2.rank ∧ d2.rank = d3.rank then
        some (min d1.value (min d2.value d3.value))
      else none) := by
  constructor
  · simp only [Play.make, insertionSort_two]
    by_cases hv : c1.value ≤ c2.value
    · rw [if_pos hv, value_pair]
      by_cases hr : c1.rank = c2.rank
      · rw [if_pos hr, if_pos hr, max_eq_right hv]
      · rw [if_neg hr, if_neg hr]
    · rw [if_neg hv, value_pair]
      by_cases hr : c1.rank = c2.rank
      · rw [if_pos hr.symm, if_pos hr, max_eq_left (by omega)]
      · rw [if_neg (fun h => hr h.symm), if_neg hr]
  · simp only [Play.make, insertionSort_three]
    by_cases h1 : d2.value ≤ d3.value <;> by_cases h2 : d1.value ≤ d2.value <;>
      by_cases h3 : d1.value ≤ d3.value <;>
      simp only [h1, h2, h3, if_true, if_false] <;> rw [value_trio] <;>
      by_cases hr1 : d1.rank = d2.rank <;> by_cases hr2 : d2.rank = d3.rank <;>
      (try simp_all [eq_comm]) <;> omega

/-! ## The accepting tail of `play`, as an explicit record -/

lemma finishPlay_spec (G : State) (cur : Nat) (p : Play) :
    finishPlay G cur p = .ok
      { players := G.players.set cur (removeCards (G.players.getD cur []) p.cards).1
        remaining :=
          G.remaining.set cur (removeCards (G.players.getD cur []) p.cards).1.length
        firstTurn := G.firstTurn
        hasStarted := G.hasStarted
        discarded := G.discarded ++ [(removeCards (G.players.getD cur []) p.cards).2]
        lastPlay :=
          if (removeCards (G.players.getD cur []) p.cards).1.length = 0 then none
          else some p
        winners :=
          if (removeCards (G.players.getD cur []) p.cards).1.length = 0 then
            G.winners ++ [cur]
          else G.winners } := by
  unfold finishPlay
  split <;> simp_all

/-! ## C7: the round's first play must contain 3C -/

/-- Claim C7. With no live play and the round not yet started, any
submission omitting `3C` is rejected; the single `3C` evaluates to `0`
and, when the seat holds `3C`, is accepted and starts the round. -/
theorem first_move_requires_lowest (G : State) (seat : Nat) (cards : List Card)
    (hlp : G.lastPlay = none) (hst : G.hasStarted = false) :
    (Card.lowest ∉ cards → playMove G seat cards = .invalid) ∧
    (Play.make [Card.lowest] (some seat)).value = some 0 ∧
    (Card.lowest ∈ G.players.getD seat [] →
      ∃ G', playMove G seat [Card.lowest] = .ok G' ∧ G'.hasStarted = true) := by
  refine ⟨?_, rfl, ?_⟩
  · intro hmem
    have hnc : ((Play.make cards (some seat)).cards.contains Card.lowest) = false := by
      simp [Play.make]
      exact hmem
    unfold playMove
    simp only [hlp, hst]
    cases hv : (Play.make cards (some seat)).value with
    | none => rfl
    | some v =>
      have hnc2 : Card.lowest ∉ (Play.make cards (some seat)).cards := by
        simp [Play.make]
        exact hmem
      by_cases hall : ∀ x ∈ (Play.make cards (some seat)).cards, x ∈ G.players.getD seat []
      · simp [hall, hnc2]
      · simp only [List.getD_eq_getElem?_getD] at hall
        simp [hall]
  · intro hhand
    have hplay : playMove G seat [Card.lowest] =
        finishPlay { G with hasStarted := true } seat (Play.make [Card.lowest] (some seat)) := by
      have hhand2 : Card.lowest ∈ G.players[seat]?.getD [] := by
        simpa [List.getD_eq_getElem?_getD] using hhand
      simp [playMove, hlp, hst, Play.make, List.insertionSort, List.orderedInsert, hhand2,
        show (Play.value ⟨[Card.lowest], some seat⟩) = some 0 from rfl]
    rw [hplay, finishPlay_spec]
    refine ⟨_, rfl, rfl⟩

/-- A two-card opening hand for seat 0, round not yet started. -/
def openingState : State :=
  { players := [[Card.lowest, ⟨'9', 'D'⟩], [], [], []]
    remaining := [2, 0, 0, 0]
    firstTurn := 0
    hasStarted := false
    discarded := []
    lastPlay := none
    winners := [] }

/-- Witness for C7 at a concrete opening state: a `4C` lead is rejected,
and the single `3C` evaluates to `0`. -/
theorem first_move_requires_lowest_witness :
    playMove openingState 0 [⟨'4', 'C'⟩] = .invalid ∧
    (Play.make [Card.lowest] (some 0)).value = some 0 := by
  have h := first_move_requires_lowest openingState 0 [⟨'4', 'C'⟩] rfl rfl
  exact ⟨h.1 (by decide), h.2.1⟩

/-! ## C2: beating the live play -/

/-- Claim C2, amended. With a live play on the table, an accepted play has
the same length and an evaluator value **at least** the live play's value
(the code only rejects strictly lower values, so equal values are
accepted); conversely a play of different length, or of strictly lower
value, is rejected. -/
theorem beat_requires_length_and_value (G : State) (lp : Play) (w seat : Nat)
    (cards : List Card) (hlp : G.lastPlay = some lp) (hw : lp.value = some w) :
    (∀ G', playMove G seat cards = .ok G' →
      ∃ v, (Play.make cards (some seat)).value = some v ∧
        (Play.make cards (some seat)).cards.length = lp.cards.length ∧ w ≤ v) ∧
    (∀ v, (Play.make cards (some seat)).value = some v →
      ((Play.make cards (some seat)).cards.length ≠ lp.cards.length ∨ v < w) →
      playMove G seat cards = .invalid) := by
  constructor
  · intro G' h
    simp only [playMove, hlp] at h
    split at h
    next => cases h
    next playValue hv =>
      split at h
      next => cases h
      next hall =>
        split at h
        next => cases h
        next hlen =>
          split at h
          next => cases h
          next hvw =>
            rw [hw] at hvw
            simp only [Option.getD_some] at hvw
            refine ⟨playValue, hv, by omega, by omega⟩
  · intro v hv hbad
    simp only [playMove, hlp, hv]
    by_cases hall : ¬ ((Play.make cards (some seat)).cards.all fun c =>
        (G.players.getD seat []).contains c)
    · rw [if_pos hall]
    · rw [if_neg hall]
      rcases hbad with hlen | hvw
      · rw [if_pos (by omega : lp.cards.length ≠ (Play.make cards (some seat)).cards.length)]
      · by_cases hlen : lp.cards.length ≠ (Play.make cards (some seat)).cards.length
        · rw [if_pos hlen]
        · rw [if_neg hlen, if_pos (by rw [hw]; simpa using hvw)]

/-- A table whose live play is the pair `3C 3H` (value 2) while seat 1
holds the pair `3S 3H`, whose evaluator value is also 2. -/
def equalValueState : State :=
  { players := [[], [⟨'3', 'S'⟩, ⟨'3', 'H'⟩], [], []]
    remaining := [0, 2, 13, 13]
    firstTurn := 0
    hasStarted := true
    discarded := []
    lastPlay := some (Play.make [⟨'3', 'C'⟩, ⟨'3', 'H'⟩] (some 0))
    winners := [] }

/-- The state after seat 1 plays the pair `3S 3H` on `equalValueState`. -/
def equalValueResult : State :=
  { players := [[], [], [], []]
    remaining := [0, 0, 13, 13]
    firstTurn := 0
    hasStarted := true
    discarded := [[⟨'3', 'S'⟩, ⟨'3', 'H'⟩]]
    lastPlay := none
    winners := [1] }

/-- Counterexample to C2 as stated: a play whose evaluator value *equals*
the live play's value (both pairs evaluate to 2) is accepted, not
rejected. -/
theorem equal_value_play_accepted :
    (Play.make [⟨'3', 'S'⟩, ⟨'3', 'H'⟩] (some 1)).value = some 2 ∧
    (Play.make [⟨'3', 'C'⟩, ⟨'3', 'H'⟩] (some 0)).value = some 2 ∧
    playMove equalValueState 1 [⟨'3', 'S'⟩, ⟨'3', 'H'⟩] = .ok equalValueResult := by
  decide

/-- Witness for C2 (amended): on the same table, the strictly lower pair
`3C 3S` (value 1 < 2) is rejected. -/
theorem beat_requires_length_and_value_witness :
    playMove equalValueState 1 [⟨'3', 'C'⟩, ⟨'3', 'S'⟩] = .invalid :=
  (beat_requires_length_and_value equalValueState
      (Play.make [⟨'3', 'C'⟩, ⟨'3', 'H'⟩] (some 0)) 2 1
      [⟨'3', 'C'⟩, ⟨'3', 'S'⟩] rfl (by decide)).2 1 (by decide) (Or.inr (by decide))

/-! ## C9: the pass move -/

/-- Claim C9. `pass` is rejected exactly when no play is live; an accepted
pass clears `lastPlay` exactly when the skip-aware next seat is the live
play's owner, and never changes hands, remaining counts, discard history,
winners, or the started flag. -/
theorem pass_spec (G : State) (seat : Nat) :
    (G.lastPlay = none ↔ passMove G seat = some .invalid) ∧
    (∀ G' lp, passMove G seat = some (.ok G') → G.lastPlay = some lp →
      ((G'.lastPlay = none ↔ lp.player = getNext G.winners seat) ∧
        G'.players = G.players ∧ G'.remaining = G.remaining ∧
        G'.discarded = G.discarded ∧ G'.winners = G.winners ∧
        G'.hasStarted = G.hasStarted ∧ G'.firstTurn = G.firstTurn)) := by
  cases hG : G.lastPlay with
  | none =>
    refine ⟨by simp [passMove, hG], ?_⟩
    intro G' lp h hlp
    exact absurd hlp (by simp)
  | some lp0 =>
    constructor
    · constructor
      · intro h
        exact absurd h (by simp)
      · intro h
        simp only [passMove, hG] at h
        cases hN : getNext G.winners seat with
        | none =>
          simp only [hN] at h
          exact absurd h (by simp)
        | some n =>
          simp only [hN] at h
          exact absurd h (by simp)
    · intro G' lp h hlp
      injection hlp with hlp
      subst hlp
      simp only [passMove, hG] at h
      cases hN : getNext G.winners seat with
      | none =>
        simp only [hN] at h
        exact absurd h (by simp)
      | some n =>
        simp only [hN] at h
        injection h with h
        injection h with h
        by_cases hp : lp0.player = some n
        · rw [if_pos hp] at h
          subst h
          simp [hN, hp]
        · rw [if_neg hp] at h
          subst h
          refine ⟨?_, rfl, rfl, rfl, rfl, rfl, rfl⟩
          rw [hG]
          simp [hp]

/-- A table with a live single `7C` owned by seat 0 and no winners. -/
def passState : State :=
  { players := [[⟨'8', 'D'⟩], [⟨'9', 'D'⟩], [⟨'T', 'D'⟩], [⟨'J', 'D'⟩]]
    remaining := [1, 1, 1, 1]
    firstTurn := 0
    hasStarted := true
    discarded := [[⟨'7', 'C'⟩]]
    lastPlay := some (Play.make [⟨'7', 'C'⟩] (some 0))
    winners := [] }

/-- Source: `passState` with the table cleared. -/
def passStateCleared : State :=
  { passState with lastPlay := none }

/-- Witness for C9: seat 3 passes on `passState`; the next seat is the
owner of the live play, so the table is cleared. -/
theorem pass_spec_witness :
    passStateCleared.lastPlay = none ∧
    passMove passState 3 = some (.ok passStateCleared) := by
  have h := (pass_spec passState 3).2 passStateCleared
    (Play.make [⟨'7', 'C'⟩] (some 0)) (by decide) rfl
  exact ⟨h.1.mpr (by decide), by decide⟩

/-! ## C3: submitting more copies of a card than the hand holds -/

/-- Seat 0 holds `3H 7D 8S`, round started, empty table. -/
def dupPlayState : State :=
  { players := [[⟨'3', 'H'⟩, ⟨'7', 'D'⟩, ⟨'8', 'S'⟩], [], [], []]
    remaining := [3, 0, 0, 0]
    firstTurn := 0
    hasStarted := true
    discarded := []
    lastPlay := none
    winners := [] }

/-- What the code actually produces when seat 0 submits `3H 3H` on
`dupPlayState`: the move is *accepted*; the hand loses its single `3H`
and — because `splice(indexOf, 1)` with `indexOf = -1` removes the last
element — also loses the unrelated `8S`. -/
def dupPlayResult : State :=
  { players := [[⟨'7', 'D'⟩], [], [], []]
    remaining := [1, 0, 0, 0]
    firstTurn := 0
    hasStarted := true
    discarded := [[⟨'3', 'H'⟩, ⟨'8', 'S'⟩]]
    lastPlay := some (Play.make [⟨'3', 'H'⟩, ⟨'3', 'H'⟩] (some 0))
    winners := [] }

/-- Claim C3, the code bug. The hand check is per-card membership
(`hand.includes`), not multiset containment, so a submission naming the
held `3H` twice is accepted instead of rejected, and the discard loop
removes the hand's last card in place of the missing second copy. -/
theorem duplicate_submission_accepted :
    playMove dupPlayState 0 [⟨'3', 'H'⟩, ⟨'3', 'H'⟩] = .ok dupPlayResult := by
  decide

/-! ## C6: five-card kind ordering dominates comparison values -/

lemma card_value_le (c : Card) (h : c.valid) : c.value ≤ 51 := by
  obtain ⟨hr, hs⟩ := h
  have h1 : RANKS.indexOf c.rank < RANKS.length := List.indexOf_lt_length.mpr hr
  have h2 : SUITS.indexOf c.suit < SUITS.length := List.indexOf_lt_length.mpr hs
  rw [show RANKS.length = 13 from rfl] at h1
  rw [show SUITS.length = 4 from rfl] at h2
  unfold Card.value
  omega

lemma straight_le (p : Play) (hv : ∀ c ∈ p.cards, c.valid) {v : Nat}
    (h : p.straight = some v) : v ≤ 51 := by
  simp only [Play.straight] at h
  split at h
  · split at h
    · split at h
      · obtain ⟨c, hc, rfl⟩ := Option.map_eq_some'.mp h
        exact card_value_le c (hv c (List.mem_of_find?_eq_some hc))
      · split at h
        · split at h
          · split at h
            · obtain ⟨c, hc, rfl⟩ := Option.map_eq_some'.mp h
              exact card_value_le c (hv c (List.mem_of_find?_eq_some hc))
            · cases h
          · cases h
        · cases h
    · cases h
  · cases h

lemma flush_le (p : Play) (hv : ∀ c ∈ p.cards, c.valid) {v : Nat}
    (h : p.flush = some v) : v ≤ 51 := by
  simp only [Play.flush] at h
  split at h
  next c0 c1 c2 c3 c4 heq =>
    split at h
    · injection h with h
      have h4 : c4.valid := hv c4 (by rw [heq]; simp)
      obtain ⟨hr, hs⟩ := h4
      have h1 : RANKS.indexOf c4.rank < RANKS.length := List.indexOf_lt_length.mpr hr
      have h2 : SUITS.indexOf c4.suit < SUITS.length := List.indexOf_lt_length.mpr hs
      rw [show RANKS.length = 13 from rfl] at h1
      rw [show SUITS.length = 4 from rfl] at h2
      omega
    · cases h
  next => cases h

lemma quadro_le (p : Play) (hv : ∀ c ∈ p.cards, c.valid) {v : Nat}
    (h : p.quadro = some v) : v ≤ 51 := by
  simp only [Play.quadro] at h
  split at h
  · obtain ⟨c, hc, rfl⟩ := Option.map_eq_some'.mp h
    exact card_value_le c (hv c (List.get?_mem hc))
  · cases h

lemma fullHouse_le (p : Play) (hv : ∀ c ∈ p.cards, c.valid) {v : Nat}
    (h : p.fullHouse = some v) : v ≤ 51 := by
  simp only [Play.fullHouse] at h
  split at h
  · obtain ⟨c, hc, rfl⟩ := Option.map_eq_some'.mp h
    exact card_value_le c (hv c (List.get?_mem hc))
  · cases h

lemma jsTruthy_some {o : Option Nat} (h : jsTruthy o = true) :
    ∃ v, o = some v ∧ o.getD 0 = v := by
  cases o <;> simp_all [jsTruthy]

lemma classify5_snd_le (p : Play) (hv : ∀ c ∈ p.cards, c.valid) :
    (p.classify5).2 ≤ 51 := by
  unfold Play.classify5
  split
  next hs =>
    obtain ⟨v, hveq, hgd⟩ := jsTruthy_some hs
    split
    · simpa [hgd] using straight_le p hv hveq
    · simpa [hgd] using straight_le p hv hveq
  next =>
    split
    next hq =>
      obtain ⟨v, hveq, hgd⟩ := jsTruthy_some hq
      simpa [hgd] using quadro_le p hv hveq
    next =>
      split
      next hf =>
        obtain ⟨v, hveq, hgd⟩ := jsTruthy_some hf
        simpa [hgd] using fullHouse_le p hv hveq
      next =>
        split
        next hfl =>
          obtain ⟨v, hveq, hgd⟩ := jsTruthy_some hfl
          simpa [hgd] using flush_le p hv hveq
        next => simp

/-- Claim C6. Every within-kind comparison value of a valid 5-card
combination is at most 51 (hence `< 1000`), so with the overall value
`kind * 1000 + comparison`, a combination of a strictly higher kind in
the order None < Straight < Flush < FullHouse < Quadro < StraightFlush
always evaluates strictly greater. -/
theorem kind_order_dominates (cs1 cs2 : List Card)
    (h1 : ∀ c ∈ cs1, c.valid) (h2 : ∀ c ∈ cs2, c.valid)
    (l1 : cs1.length = 5) (l2 : cs2.length = 5)
    (hne : ((Play.make cs1 none).classify5).1 ≠ Combi.none)
    (hlt : ((Play.make cs1 none).classify5).1.toNat <
      ((Play.make cs2 none).classify5).1.toNat) :
    ((Play.make cs1 none).classify5).2 < 1000 ∧
    ∃ v1 v2, (Play.make cs1 none).value = some v1 ∧
      (Play.make cs2 none).value = some v2 ∧ v1 < v2 := by
  have hv1 : ∀ c ∈ (Play.make cs1 none).cards, c.valid := by
    intro c hc
    exact h1 c (by simpa [Play.make] using hc)
  have hv2 : ∀ c ∈ (Play.make cs2 none).cards, c.valid := by
    intro c hc
    exact h2 c (by simpa [Play.make] using hc)
  have b1 := classify5_snd_le _ hv1
  have b2 := classify5_snd_le _ hv2
  have hlen1 : (Play.make cs1 none).cards.length = 5 := by
    simpa [Play.make] using l1
  have hlen2 : (Play.make cs2 none).cards.length = 5 := by
    simpa [Play.make] using l2
  have hne2 : ((Play.make cs2 none).classify5).1 ≠ Combi.none := by
    intro e
    rw [e] at hlt
    simp [Combi.toNat] at hlt
  have hval1 : (Play.make cs1 none).value =
      some (((Play.make cs1 none).classify5).1.toNat * 1000 +
        ((Play.make cs1 none).classify5).2) := by
    unfold Play.value
    rw [hlen1]
    simp [hne]
  have hval2 : (Play.make cs2 none).value =
      some (((Play.make cs2 none).classify5).1.toNat * 1000 +
        ((Play.make cs2 none).classify5).2) := by
    unfold Play.value
    rw [hlen2]
    simp [hne2]
  refine ⟨by omega, _, _, hval1, hval2, by omega⟩

/-- Witness for C6: the club flush `3C 5C 7C 9C JC` (kind Flush) against
the quadro `4C 4S 4H 4D 6C` (kind Quadro). -/
theorem kind_order_dominates_witness :
    ((Play.make [⟨'3', 'C'⟩, ⟨'5', 'C'⟩, ⟨'7', 'C'⟩, ⟨'9', 'C'⟩, ⟨'J', 'C'⟩]
      none).classify5).2 < 1000 :=
  (kind_order_dominates
    [⟨'3', 'C'⟩, ⟨'5', 'C'⟩, ⟨'7', 'C'⟩, ⟨'9', 'C'⟩, ⟨'J', 'C'⟩]
    [⟨'4', 'C'⟩, ⟨'4', 'S'⟩, ⟨'4', 'H'⟩, ⟨'4', 'D'⟩, ⟨'6', 'C'⟩]
    (by decide) (by decide) (by decide) (by decide) (by decide) (by decide)).1

/-! ## C1: which 5-card sets the code counts as straights -/

lemma num_lt (c : Card) : num c < 13 :=
  Nat.mod_lt _ (by omega)

def specOrd (c : Card) : Nat :=
  if c.rank = 'A' then 0 else if c.rank = '2' then 1 else RANKS.indexOf c.rank + 2

lemma specOrd_eq_num (c : Card) (hc : c.valid) : specOrd c = num c := by
  obtain ⟨hr, _⟩ := hc
  simp only [RANKS] at hr
  simp only [List.mem_cons, List.not_mem_nil, or_false] at hr
  rcases hr with h | h | h | h | h | h | h | h | h | h | h | h | h <;>
    simp [specOrd, num, RANKS, h]

lemma num_rank_inj (c1 c2 : Card) (h1 : c1.valid) (h2 : c2.valid)
    (heq : num c1 = num c2) : c1.rank = c2.rank := by
  have i1 : RANKS.indexOf c1.rank < RANKS.length := List.indexOf_lt_length.mpr h1.1
  have i2 : RANKS.indexOf c2.rank < RANKS.length := List.indexOf_lt_length.mpr h2.1
  rw [show RANKS.length = 13 from rfl] at i1 i2
  have heqi : RANKS.indexOf c1.rank = RANKS.indexOf c2.rank := by
    unfold num at heq
    omega
  exact (List.indexOf_inj h1.1 h2.1).mp heqi

lemma rank_of_num (c : Card) (hc : c.valid) :
    (num c = 0 → c.rank = 'A') ∧ (num c = 9 → c.rank = 'T') ∧
    (num c = 10 → c.rank = 'J') ∧ (num c = 11 → c.rank = 'Q') ∧
    (num c = 12 → c.rank = 'K') := by
  obtain ⟨hr, _⟩ := hc
  simp only [RANKS] at hr
  simp only [List.mem_cons, List.not_mem_nil, or_false] at hr
  rcases hr with h | h | h | h | h | h | h | h | h | h | h | h | h <;>
    simp [num, RANKS, h]

lemma value_ne_zero (c : Card) (hc : c.valid) (h : num c = 0 ∨ 4 ≤ num c) :
    c.value ≠ 0 := by
  have i1 : RANKS.indexOf c.rank < RANKS.length := List.indexOf_lt_length.mpr hc.1
  rw [show RANKS.length = 13 from rfl] at i1
  unfold num at h
  unfold Card.value
  omega

lemma perm_toFinset {α : Type _} [DecidableEq α] {l l' : List α} (h : l.Perm l') :
    l.toFinset = l'.toFinset := by
  ext x
  simp [List.mem_toFinset, h.mem_iff]

def straightSpecAmended (cs : List Card) : Prop :=
  (cs.map Card.rank).Nodup ∧
  ((∃ a ∈ Finset.range 9,
      (cs.map specOrd).toFinset = {a, a + 1, a + 2, a + 3, a + 4}) ∨
   (cs.map Card.rank).toFinset = {'T', 'J', 'Q', 'K', 'A'})

instance (cs : List Card) : Decidable (straightSpecAmended cs) := by
  unfold straightSpecAmended
  infer_instance

lemma map_num_eq (l : List Card) :
    l.map num = (l.map Card.rank).map (fun r => (RANKS.indexOf r + 2) % 13) := by
  rw [List.map_map]
  rfl

lemma ranks_nodup_of_num_nodup {l : List Card} (h : (l.map num).Nodup) :
    (l.map Card.rank).Nodup := by
  rw [map_num_eq] at h
  exact h.of_map _

lemma num_nodup_of_ranks_nodup {l : List Card} (hv : ∀ c ∈ l, c.valid)
    (h : (l.map Card.rank).Nodup) : (l.map num).Nodup := by
  refine List.Nodup.map_on ?_ (h.of_map _)
  intro x hx y hy hxy
  exact List.inj_on_of_nodup_map h hx hy (num_rank_inj x y (hv x hx) (hv y hy) hxy)

lemma map_specOrd_eq_map_num {l : List Card} (hv : ∀ c ∈ l, c.valid) :
    l.map specOrd = l.map num :=
  List.map_congr_left fun c hc => specOrd_eq_num c (hv c hc)

lemma straight_of_spec {cs : List Card} (h5 : cs.length = 5)
    (hv : ∀ c ∈ cs, c.valid) (hs : straightSpecAmended cs) :
    jsTruthy (Play.make cs none).straight = true := by
  obtain ⟨hrnd, hdisj⟩ := hs
  have hpc : (Play.make cs none).cards.Perm cs := List.perm_insertionSort _ _
  set p := Play.make cs none with hp
  have hvp : ∀ c ∈ p.cards, c.valid := fun c hc => hv c (hpc.mem_iff.mp hc)
  have hnsperm : (p.cards.map num).Perm (cs.map num) := hpc.map num
  have hcsnum_nd : (cs.map num).Nodup := num_nodup_of_ranks_nodup hv hrnd
  have hnsnd : (p.cards.map num).Nodup := (hnsperm.nodup_iff).mpr hcsnum_nd
  have hded : (p.cards.map num).dedup = p.cards.map num := hnsnd.dedup
  have hlen : (p.cards.map num).length = 5 := by
    rw [List.length_map, show p.cards.length = cs.length from List.length_insertionSort _ _]
    exact h5
  rcases hdisj with ⟨a, ha, hfin⟩ | hfin
  · rw [Finset.mem_range] at ha
    rw [map_specOrd_eq_map_num hv] at hfin
    have hlit_nd : ([a, a + 1, a + 2, a + 3, a + 4] : List Nat).Nodup := by
      simp <;> omega
    have hlit_fin : ([a, a + 1, a + 2, a + 3, a + 4] : List Nat).toFinset =
        {a, a + 1, a + 2, a + 3, a + 4} := by
      simp [List.toFinset_cons]
    have hperm2 : (cs.map num).Perm [a, a + 1, a + 2, a + 3, a + 4] :=
      List.perm_of_nodup_nodup_toFinset_eq hcsnum_nd hlit_nd (hfin.trans hlit_fin.symm)
    have hsorted_lit : List.Sorted (· ≤ ·) [a, a + 1, a + 2, a + 3, a + 4] := by
      simp [List.sorted_cons] <;> omega
    have hsort : (p.cards.map num).insertionSort (· ≤ ·) = [a, a + 1, a + 2, a + 3, a + 4] :=
      List.eq_of_perm_of_sorted
        ((List.perm_insertionSort _ _).trans (hnsperm.trans hperm2))
        (List.sorted_insertionSort _ _) hsorted_lit
    have hmem : (a + 4) ∈ p.cards.map num :=
      (hnsperm.trans hperm2).mem_iff.mpr (by simp)
    obtain ⟨c, hcmem, hcnum⟩ := List.mem_map.mp hmem
    obtain ⟨x, hx⟩ : ∃ x, p.cards.find? (fun c => num c == a + 4) = some x :=
      Option.isSome_iff_exists.mp (List.find?_isSome.mpr ⟨c, hcmem, by simp [hcnum]⟩)
    have hxval : x.value ≠ 0 :=
      value_ne_zero x (hvp x (List.mem_of_find?_eq_some hx))
        (Or.inr (by
          have := List.find?_some hx
          simp at this
          omega))
    simp [Play.straight, hded, hlen, hsort, hx, jsTruthy, hxval]
  · have himg : (cs.map num).toFinset = ({0, 9, 10, 11, 12} : Finset Nat) := by
      ext n
      simp only [List.mem_toFinset, map_num_eq, List.mem_map]
      constructor
      · rintro ⟨r, hr, rfl⟩
        have hr2 : r ∈ ({'T', 'J', 'Q', 'K', 'A'} : Finset Char) := by
          rw [← hfin]
          simpa using hr
        simp only [Finset.mem_insert, Finset.mem_singleton] at hr2
        rcases hr2 with rfl | rfl | rfl | rfl | rfl <;> decide
      · intro hn
        simp only [Finset.mem_insert, Finset.mem_singleton] at hn
        have hch : ∀ ch ∈ ({'T', 'J', 'Q', 'K', 'A'} : Finset Char),
            ∃ a ∈ cs, a.rank = ch := by
          intro ch hc2
          have : ch ∈ List.map Card.rank cs := by
            rw [← List.mem_toFinset, hfin]
            exact hc2
          obtain ⟨c, hc, hcr⟩ := List.mem_map.mp this
          exact ⟨c, hc, hcr⟩
        rcases hn with rfl | rfl | rfl | rfl | rfl
        · exact ⟨'A', hch 'A' (by decide), by decide⟩
        · exact ⟨'T', hch 'T' (by decide), by decide⟩
        · exact ⟨'J', hch 'J' (by decide), by decide⟩
        · exact ⟨'Q', hch 'Q' (by decide), by decide⟩
        · exact ⟨'K', hch 'K' (by decide), by decide⟩
    have hlit_nd : ([0, 9, 10, 11, 12] : List Nat).Nodup := by decide
    have hperm2 : (cs.map num).Perm [0, 9, 10, 11, 12] :=
      List.perm_of_nodup_nodup_toFinset_eq hcsnum_nd hlit_nd (himg.trans (by decide))
    have hsort : (p.cards.map num).insertionSort (· ≤ ·) = [0, 9, 10, 11, 12] :=
      List.eq_of_perm_of_sorted
        ((List.perm_insertionSort _ _).trans (hnsperm.trans hperm2))
        (List.sorted_insertionSort _ _) (by simp [List.sorted_cons])
    have hsort2 : ([13, 9, 10, 11, 12] : List Nat).insertionSort (· ≤ ·) =
        [9, 10, 11, 12, 13] := by decide
    have hmem : (0 : Nat) ∈ p.cards.map num :=
      (hnsperm.trans hperm2).mem_iff.mpr (by simp)
    obtain ⟨c, hcmem, hcnum⟩ := List.mem_map.mp hmem
    obtain ⟨x, hx⟩ : ∃ x, p.cards.find? (fun c => num c == 0) = some x :=
      Option.isSome_iff_exists.mp (List.find?_isSome.mpr ⟨c, hcmem, by simp [hcnum]⟩)
    have hxval : x.value ≠ 0 :=
      value_ne_zero x (hvp x (List.mem_of_find?_eq_some hx))
        (Or.inl (by simpa using List.find?_some hx))
    simp [Play.straight, hded, hlen, hsort, hsort2, hx, jsTruthy, hxval]

lemma spec_of_straight {cs : List Card} (h5 : cs.length = 5)
    (hv : ∀ c ∈ cs, c.valid) (hs : jsTruthy (Play.make cs none).straight = true) :
    straightSpecAmended cs := by
  have hpc : (Play.make cs none).cards.Perm cs := List.perm_insertionSort _ _
  set p := Play.make cs none with hp
  have hvp : ∀ c ∈ p.cards, c.valid := fun c hc => hv c (hpc.mem_iff.mp hc)
  have hnsperm : (p.cards.map num).Perm (cs.map num) := hpc.map num
  obtain ⟨v, hst, hv0⟩ : ∃ v, p.straight = some v ∧ v ≠ 0 := by
    cases hstr : p.straight with
    | none => rw [hstr] at hs; simp [jsTruthy] at hs
    | some v =>
      refine ⟨v, rfl, ?_⟩
      rw [hstr] at hs
      simpa [jsTruthy] using hs
  simp only [Play.straight] at hst
  split at hst
  case isTrue hlen5 =>
    have hnslen : (p.cards.map num).length = 5 := by
      rw [List.length_map,
        show p.cards.length = cs.length from List.length_insertionSort _ _, h5]
    have hded : (p.cards.map num).dedup = p.cards.map num :=
      (List.dedup_sublist _).eq_of_length (by rw [hlen5, hnslen])
    have hnsnd : (p.cards.map num).Nodup := by
      rw [← hded]
      exact List.nodup_dedup _
    have hrnd : (cs.map Card.rank).Nodup :=
      ranks_nodup_of_num_nodup ((hnsperm.nodup_iff).mp hnsnd)
    rw [hded] at hst
    split at hst
    next n0 n1 n2 n3 n4 hsorteq =>
      have hsorted : List.Sorted (· ≤ ·) [n0, n1, n2, n3, n4] := by
        rw [← hsorteq]
        exact List.sorted_insertionSort _ _
      have hpermsort : ([n0, n1, n2, n3, n4] : List Nat).Perm (p.cards.map num) := by
        rw [← hsorteq]
        exact List.perm_insertionSort _ _
      have hlitnd : ([n0, n1, n2, n3, n4] : List Nat).Nodup :=
        (hpermsort.nodup_iff).mpr hnsnd
      have hchain : n0 < n1 ∧ n1 < n2 ∧ n2 < n3 ∧ n3 < n4 := by
        simp only [List.sorted_cons, List.mem_cons, List.not_mem_nil, or_false,
          forall_eq_or_imp, forall_eq, List.Sorted, List.pairwise_cons,
          List.Pairwise.nil, and_true] at hsorted
        simp only [List.nodup_cons, List.mem_cons, List.not_mem_nil, or_false,
          not_or, List.nodup_nil, and_true] at hlitnd
        omega
      have hbound : ∀ m ∈ ([n0, n1, n2, n3, n4] : List Nat), m < 13 := by
        intro m hm
        obtain ⟨c, _, rfl⟩ := List.mem_map.mp (hpermsort.mem_iff.mp hm)
        exact num_lt c
      refine ⟨hrnd, ?_⟩
      split at hst
      case isTrue hcond =>
        left
        have h4lt : n4 < 13 := hbound n4 (by simp)
        refine ⟨n0, by rw [Finset.mem_range]; omega, ?_⟩
        rw [map_specOrd_eq_map_num hv]
        have hfineq : (cs.map num).toFinset = ([n0, n1, n2, n3, n4] : List Nat).toFinset :=
          perm_toFinset (hnsperm.symm.trans hpermsort.symm)
        have e1 : n1 = n0 + 1 := by omega
        have e2 : n2 = n0 + 2 := by omega
        have e3 : n3 = n0 + 3 := by omega
        have e4 : n4 = n0 + 4 := by omega
        rw [hfineq, e1, e2, e3, e4]
        simp [List.toFinset_cons]
      case isFalse hcond =>
        split at hst
        case isTrue hzero =>
          split at hst
          next m0 m1 m2 m3 m4 hinner =>
            split at hst
            case isTrue hcond2 =>
              right
              obtain ⟨h01, h12, h23, h34⟩ := hchain
              have hb4 : n4 < 13 := hbound n4 (by simp)
              have hsorted2 : List.Sorted (· ≤ ·) [n1, n2, n3, n4, 13] := by
                simp [List.sorted_cons]
                omega
              have hinner2 : ([13, n1, n2, n3, n4] : List Nat).insertionSort (· ≤ ·) =
                  [n1, n2, n3, n4, 13] :=
                List.eq_of_perm_of_sorted
                  ((List.perm_insertionSort _ _).trans
                    (List.perm_append_singleton 13 [n1, n2, n3, n4]).symm)
                  (List.sorted_insertionSort _ _) hsorted2
              rw [hinner2] at hinner
              obtain ⟨f0, f1, f2, f3, f4⟩ :
                  n1 = m0 ∧ n2 = m1 ∧ n3 = m2 ∧ n4 = m3 ∧ (13 : Nat) = m4 := by
                simpa using hinner
              have hvals : n0 = 0 ∧ n1 = 9 ∧ n2 = 10 ∧ n3 = 11 ∧ n4 = 12 := by
                have hb2 : n2 < 13 := hbound n2 (by simp)
                have hb3 : n3 < 13 := hbound n3 (by simp)
                omega
              have hsubset : (cs.map Card.rank).toFinset ⊆
                  ({'T', 'J', 'Q', 'K', 'A'} : Finset Char) := by
                intro r hr
                obtain ⟨c, hc, rfl⟩ := List.mem_map.mp (List.mem_toFinset.mp hr)
                have hm1 : num c ∈ cs.map num := List.mem_map.mpr ⟨c, hc, rfl⟩
                have hm2 : num c ∈ ([n0, n1, n2, n3, n4] : List Nat) :=
                  hpermsort.mem_iff.mpr (hnsperm.mem_iff.mpr hm1)
                obtain ⟨g0, g1, g2, g3, g4⟩ := hvals
                rw [g0, g1, g2, g3, g4] at hm2
                simp only [List.mem_cons, List.not_mem_nil, or_false] at hm2
                have hrk := rank_of_num c (hv c hc)
                rcases hm2 with h | h | h | h | h
                · rw [hrk.1 h]; decide
                · rw [hrk.2.1 h]; decide
                · rw [hrk.2.2.1 h]; decide
                · rw [hrk.2.2.2.1 h]; decide
                · rw [hrk.2.2.2.2 h]; decide
              have hcard : ({'T', 'J', 'Q', 'K', 'A'} : Finset Char).card ≤
                  (cs.map Card.rank).toFinset.card := by
                rw [List.toFinset_card_of_nodup hrnd, List.length_map, h5]
                decide
              exact Finset.eq_of_subset_of_card_le hsubset hcard
            case isFalse => exact absurd hst (by simp)
          next => exact absurd hst (by simp)
        case isFalse hzero => exact absurd hst (by simp)
    next => exact absurd hst (by simp)
  case isFalse => exact absurd hst (by simp)

/-- Claim C1, amended. A 5-card set of (valid, distinct-rank) cards passes
the straight test exactly when its ranks are distinct and consecutive
under the ordering that places `A` lowest (0), `2` next (1), then `3 … K`
(so `A 2 3 4 5` up through `9 T J Q K`), or the set is the Ace-high run
`T J Q K A`.  The spec's claimed wraparound `J Q K A 2` is *not* one of
these. -/
theorem straight_amended_characterization (cs : List Card) (h5 : cs.length = 5)
    (hv : ∀ c ∈ cs, c.valid) :
    jsTruthy (Play.make cs none).straight = true ↔ straightSpecAmended cs :=
  ⟨spec_of_straight h5 hv, straight_of_spec h5 hv⟩

/-- Counterexample to C1 as stated: the wraparound run `J Q K A 2` (mixed
suits, so no flush rescue) is not recognised by the straight test and the
whole 5-card set evaluates to `null` — "invalid", which the claim says
can never happen. -/
theorem wraparound_not_straight :
    (Play.make [⟨'J', 'C'⟩, ⟨'Q', 'C'⟩, ⟨'K', 'C'⟩, ⟨'A', 'C'⟩, ⟨'2', 'S'⟩]
      none).straight = none ∧
    (Play.make [⟨'J', 'C'⟩, ⟨'Q', 'C'⟩, ⟨'K', 'C'⟩, ⟨'A', 'C'⟩, ⟨'2', 'S'⟩]
      none).value = none := by
  decide

/-- Witness for C1 (amended): the Ace-high run `T J Q K A` passes the
straight test. -/
theorem straight_amended_characterization_witness :
    jsTruthy (Play.make [⟨'T', 'C'⟩, ⟨'J', 'C'⟩, ⟨'Q', 'H'⟩, ⟨'K', 'C'⟩, ⟨'A', 'C'⟩]
      none).straight = true :=
  (straight_amended_characterization
    [⟨'T', 'C'⟩, ⟨'J', 'C'⟩, ⟨'Q', 'H'⟩, ⟨'K', 'C'⟩, ⟨'A', 'C'⟩]
    (by decide) (by decide)).mpr (by decide)

/-! ## C4 and C8: deck conservation and winner bookkeeping -/

lemma removeCards_nil (l : List Card) : removeCards [] l = ([], []) := by
  induction l with
  | nil => rfl
  | cons c rest ih => simp [removeCards, ih]

lemma append_middle_perm (A B H : List Card) (c : Card)
    (h : (A ++ B).Perm H) : (A ++ ([c] ++ B)).Perm (H ++ [c]) := by
  refine (List.Perm.append_left A List.perm_append_comm).trans ?_
  rw [← List.append_assoc]
  exact h.append_right [c]

lemma removeCards_perm (hand : List Card) (l : List Card) :
    ((removeCards hand l).1 ++ (removeCards hand l).2).Perm hand := by
  induction l generalizing hand with
  | nil => simp [removeCards]
  | cons c rest ih =>
    by_cases hc : c ∈ hand
    · simp only [removeCards, hc, if_pos]
      exact (append_middle_perm _ _ _ c (ih (hand.erase c))).trans
        ((List.perm_append_singleton c _).trans (List.perm_cons_erase hc).symm)
    · rcases List.eq_nil_or_concat hand with rfl | ⟨h', a, rfl⟩
      · simp [removeCards, removeCards_nil, hc]
      · rw [List.concat_eq_append] at hc
        simp only [removeCards, List.concat_eq_append, hc, if_false, List.dropLast_concat,
          List.getLast?_concat, Option.toList_some]
        exact append_middle_perm _ _ _ a (ih h')

lemma dealGo_join : ∀ (fuel : Nat) (deck : List Card), deck.length ≤ fuel →
    (dealGo fuel deck).flatten = deck := by
  intro fuel
  induction fuel with
  | zero =>
    intro deck h
    have : deck = [] := List.length_eq_zero.mp (by omega)
    subst this
    rfl
  | succ fuel ih =>
    intro deck h
    by_cases hd : deck.length = 0
    · rw [List.length_eq_zero.mp hd]
      rfl
    · simp only [dealGo, hd, if_false]
      rw [List.flatten_cons, ih _ (by rw [List.length_drop]; omega)]
      exact List.take_append_drop _ _

lemma flatten_set_perm (l : List (List Card)) (i : Nat) (x : List Card) (hi : i < l.length) :
    ((l.set i x).flatten ++ l.getD i []).Perm (l.flatten ++ x) := by
  induction l generalizing i with
  | nil => simp at hi
  | cons h t ih =>
    cases i with
    | zero =>
      simp only [List.set_cons_zero, List.flatten_cons, List.getD_cons_zero]
      rw [← Multiset.coe_eq_coe]
      simp only [← Multiset.coe_add]
      abel
    | succ i =>
      simp only [List.set_cons_succ, List.flatten_cons, List.getD_cons_succ]
      have hmain := ih i (by simpa using Nat.lt_of_succ_lt_succ hi)
      rw [← Multiset.coe_eq_coe] at hmain ⊢
      simp only [← Multiset.coe_add] at hmain ⊢
      rw [add_assoc, hmain, ← add_assoc]

lemma playMove_ok_shape {G G' : State} {seat : Nat} {cards : List Card}
    (h : playMove G seat cards = .ok G') :
    ∃ Gb : State, Gb.players = G.players ∧ Gb.discarded = G.discarded ∧
      Gb.winners = G.winners ∧ Gb.remaining = G.remaining ∧
      finishPlay Gb seat (Play.make cards (some seat)) = .ok G' ∧
      ((Play.make cards (some seat)).cards.all fun c =>
        (G.players.getD seat []).contains c) = true ∧
      (∃ v, (Play.make cards (some seat)).value = some v) := by
  simp only [playMove] at h
  split at h
  next => cases h
  next playValue hv =>
    split at h
    next => cases h
    next hall =>
      rw [Bool.not_eq_true] at hall
      replace hall : ((Play.make cards (some seat)).cards.all fun c =>
          (G.players.getD seat []).contains c) = true := by
        cases hb : ((Play.make cards (some seat)).cards.all fun c =>
            (G.players.getD seat []).contains c)
        · exact absurd hb hall
        · rfl
      split at h
      next hlast =>
        split at h
        next hstarted =>
          split at h
          next => cases h
          next hlow =>
            exact ⟨{ G with hasStarted := true }, rfl, rfl, rfl, rfl, h, hall, playValue, hv⟩
        next hstarted => exact ⟨G, rfl, rfl, rfl, rfl, h, hall, playValue, hv⟩
      next lp hlast =>
        split at h
        next => cases h
        next hlen =>
          split at h
          next => cases h
          next hvw => exact ⟨G, rfl, rfl, rfl, rfl, h, hall, playValue, hv⟩

lemma passMove_ok_fields {G G' : State} {seat : Nat}
    (h : passMove G seat = some (.ok G')) :
    G'.players = G.players ∧ G'.discarded = G.discarded ∧ G'.winners = G.winners ∧
    G'.remaining = G.remaining ∧ G'.hasStarted = G.hasStarted := by
  simp only [passMove] at h
  split at h
  next => exact absurd h (by simp)
  next lp hlp =>
    split at h
    next => exact absurd h (by simp)
    next n hn =>
      injection h with h
      injection h with h
      split at h <;> (subst h; exact ⟨rfl, rfl, rfl, rfl, rfl⟩)

/-- Claim C4. In every state reachable from a fresh deal by accepted moves,
the cards in all hands plus all discard entries are a permutation of the
52-card deck, and every deck card sits in exactly one hand or discard
entry.  (This survives even the duplicate-submission path: `splice(-1,1)`
moves a *real* card from the hand to the discard, and on an empty hand
the `undefined` it pops carries no card at all.) -/
theorem deck_conservation (G : State) (hR : Reachable G) :
    (G.players.flatten ++ G.discarded.flatten).Perm Card.newDeck ∧
    ∀ c ∈ Card.newDeck, (G.players.flatten ++ G.discarded.flatten).count c = 1 := by
  have main : (G.players.flatten ++ G.discarded.flatten).Perm Card.newDeck := by
    induction hR with
    | setup deck hperm =>
      simp only [setup, deal]
      rw [dealGo_join _ _ le_rfl]
      simpa using hperm
    | play Ga Gc seat cards hR0 hseat hok ih =>
      obtain ⟨Gb, hpl, hdisc, hwin, hrem, hfin, hall, v, hv⟩ := playMove_ok_shape hok
      rw [finishPlay_spec] at hfin
      injection hfin with hfin
      subst hfin
      rw [← hpl, ← hdisc] at ih
      by_cases hin : seat < Gb.players.length
      · have hset := flatten_set_perm Gb.players seat
          (removeCards (Gb.players.getD seat []) (Play.make cards (some seat)).cards).1 hin
        have hrm := removeCards_perm (Gb.players.getD seat [])
          (Play.make cards (some seat)).cards
        rw [← Multiset.coe_eq_coe] at hset hrm ih ⊢
        simp only [List.flatten_append, List.flatten_cons, List.flatten_nil,
          List.append_nil, ← Multiset.coe_add] at hset hrm ih ⊢
        have key :
            ((↑((Gb.players.set seat
                (removeCards (Gb.players.getD seat [])
                  (Play.make cards (some seat)).cards).1).flatten) : Multiset Card) +
              ((↑Gb.discarded.flatten : Multiset Card) +
                (↑(removeCards (Gb.players.getD seat [])
                  (Play.make cards (some seat)).cards).2 : Multiset Card))) +
              (↑(Gb.players.getD seat []) : Multiset Card) =
            (↑Card.newDeck : Multiset Card) +
              (↑(Gb.players.getD seat []) : Multiset Card) := by
          calc _ = ((↑((Gb.players.set seat
                  (removeCards (Gb.players.getD seat [])
                    (Play.make cards (some seat)).cards).1).flatten) : Multiset Card) +
                (↑(Gb.players.getD seat []) : Multiset Card)) +
                ((↑Gb.discarded.flatten : Multiset Card) +
                  (↑(removeCards (Gb.players.getD seat [])
                    (Play.make cards (some seat)).cards).2 : Multiset Card)) := by
                abel
            _ = ((↑Gb.players.flatten : Multiset Card) +
                (↑(removeCards (Gb.players.getD seat [])
                  (Play.make cards (some seat)).cards).1 : Multiset Card)) +
                ((↑Gb.discarded.flatten : Multiset Card) +
                  (↑(removeCards (Gb.players.getD seat [])
                    (Play.make cards (some seat)).cards).2 : Multiset Card)) := by
                rw [hset]
            _ = ((↑Gb.players.flatten : Multiset Card) +
                (↑Gb.discarded.flatten : Multiset Card)) +
                ((↑(removeCards (Gb.players.getD seat [])
                  (Play.make cards (some seat)).cards).1 : Multiset Card) +
                  (↑(removeCards (Gb.players.getD seat [])
                    (Play.make cards (some seat)).cards).2 : Multiset Card)) := by
                abel
            _ = ((↑Gb.players.flatten : Multiset Card) +
                (↑Gb.discarded.flatten : Multiset Card)) +
                (↑(Gb.players.getD seat []) : Multiset Card) := by
                rw [hrm]
            _ = (↑Card.newDeck : Multiset Card) +
                (↑(Gb.players.getD seat []) : Multiset Card) := by
                rw [ih]
        exact add_right_cancel key
      · have hsetid : Gb.players.set seat
            (removeCards (Gb.players.getD seat [])
              (Play.make cards (some seat)).cards).1 = Gb.players :=
          List.set_eq_of_length_le (by omega)
        have hhand : Gb.players.getD seat [] = [] := by
          rw [List.getD_eq_getElem?_getD, List.getElem?_eq_none (by omega)]
          rfl
        rw [hsetid, hhand, removeCards_nil]
        simpa [List.flatten_append] using ih
    | pass Ga Gc seat hR0 hseat hok ih =>
      obtain ⟨hpl, hdisc, _, _, _⟩ := passMove_ok_fields hok
      rw [hpl, hdisc]
      exact ih
  refine ⟨main, fun c hc => ?_⟩
  rw [main.count_eq c]
  have hnd : Card.newDeck.Nodup := by decide
  have h1 : Card.newDeck.count c ≤ 1 := List.nodup_iff_count_le_one.mp hnd c
  have h2 : 0 < Card.newDeck.count c := List.count_pos_iff.mpr hc
  omega

lemma dealGo_forall_ne_nil : ∀ (fuel : Nat) (deck : List Card),
    ∀ h ∈ dealGo fuel deck, h ≠ [] := by
  intro fuel
  induction fuel with
  | zero => intro deck h hm; simp [dealGo] at hm
  | succ fuel ih =>
    intro deck h hm
    by_cases hd : deck.length = 0
    · simp [dealGo, hd] at hm
    · simp only [dealGo, hd, if_false, List.mem_cons] at hm
      rcases hm with rfl | hm
      · intro he
        rcases List.take_eq_nil_iff.mp he with h13 | hnil
        · omega
        · rw [hnil] at hd
          simp at hd
      · exact ih _ h hm

lemma dealGo_length_eq : ∀ (fuel : Nat) (deck : List Card), deck.length ≤ fuel →
    (dealGo fuel deck).length = (deck.length + 12) / 13 := by
  intro fuel
  induction fuel with
  | zero =>
    intro deck h
    have h0 : deck.length = 0 := by omega
    rw [h0, List.length_eq_zero.mp h0]
    rfl
  | succ fuel ih =>
    intro deck h
    by_cases hd : deck.length = 0
    · rw [List.length_eq_zero.mp hd]
      rfl
    · simp only [dealGo, hd, if_false, List.length_cons]
      rw [ih _ (by rw [List.length_drop]; omega), List.length_drop]
      omega

lemma value_some_cards_ne_nil {p : Play} {v : Nat} (h : p.value = some v) :
    p.cards ≠ [] := by
  intro hnil
  simp [Play.value, hnil] at h

lemma getD_set_same {l : List (List Card)} {i : Nat} (hi : i < l.length)
    (x : List Card) : (l.set i x).getD i [] = x := by
  rw [List.getD_eq_getElem?_getD, List.getElem?_set_self hi]
  rfl

lemma getD_set_other {l : List (List Card)} {i j : Nat} (hij : i ≠ j)
    (x : List Card) : (l.set i x).getD j [] = l.getD j [] := by
  rw [List.getD_eq_getElem?_getD, List.getElem?_set_ne hij, ← List.getD_eq_getElem?_getD]

lemma reachable_invariants (G : State) (hR : Reachable G) :
    G.players.length = 4 ∧ G.winners.Nodup ∧ (∀ s ∈ G.winners, s < 4) ∧
    (∀ s, s < 4 → (s ∈ G.winners ↔ G.players.getD s [] = [])) := by
  induction hR with
  | setup deck hperm =>
    have hlen : deck.length = 52 := by rw [hperm.length_eq]; rfl
    have hplen : (dealGo deck.length deck).length = 4 := by
      rw [dealGo_length_eq _ _ le_rfl, hlen]
    refine ⟨hplen, by simp [setup], by simp [setup], ?_⟩
    intro s hs
    simp only [setup, List.not_mem_nil, false_iff]
    unfold deal
    have hg : (dealGo deck.length deck).getD s [] = (dealGo deck.length deck)[s] :=
      List.getD_eq_getElem _ _ (by omega)
    rw [hg]
    exact dealGo_forall_ne_nil _ _ _ (List.getElem_mem (by omega))
  | play Ga Gc seat cards hR0 hseat hok ih =>
    obtain ⟨Gb, hpl, hdisc, hwin, hrem, hfin, hall, v, hv⟩ := playMove_ok_shape hok
    rw [finishPlay_spec] at hfin
    injection hfin with hfin
    subst hfin
    obtain ⟨ih1, ih2, ih3, ih4⟩ := ih
    have hhand_ne : Gb.players.getD seat [] ≠ [] := by
      obtain ⟨c0, hc0⟩ :=
        List.exists_mem_of_ne_nil _ (value_some_cards_ne_nil hv)
      have hcont := (List.all_eq_true.mp hall) c0 hc0
      rw [hpl]
      intro hemp
      rw [hemp] at hcont
      simp at hcont
    have hseatnw : seat ∉ Gb.winners := by
      rw [hwin]
      intro hmem
      exact hhand_ne (by rw [hpl]; exact (ih4 seat hseat).mp hmem)
    have hseatlt : seat < Gb.players.length := by
      rw [hpl, ih1]
      exact hseat
    by_cases hemp : (removeCards (Gb.players.getD seat [])
        (Play.make cards (some seat)).cards).1.length = 0
    · simp only [hemp, if_true, reduceIte]
      refine ⟨by rw [List.length_set, hpl, ih1], ?_, ?_, ?_⟩
      · rw [List.nodup_append]
        refine ⟨by rw [hwin]; exact ih2, List.nodup_singleton _, ?_⟩
        intro a ha hb
        simp only [List.mem_singleton] at hb
        subst hb
        exact hseatnw ha
      · intro s hs
        rcases List.mem_append.mp hs with hs | hs
        · exact ih3 s (by rw [← hwin]; exact hs)
        · simp only [List.mem_singleton] at hs
          omega
      · intro s hs
        by_cases hseq : s = seat
        · subst hseq
          simp only [List.mem_append, List.mem_singleton, or_true, true_iff]
          rw [getD_set_same hseatlt]
          exact List.length_eq_zero.mp hemp
        · rw [getD_set_other (fun h => hseq h.symm)]
          simp only [List.mem_append, List.mem_singleton, hseq, or_false]
          rw [hwin, hpl] at *
          exact ih4 s hs
    · simp only [hemp, if_false, reduceIte]
      refine ⟨by rw [List.length_set, hpl, ih1], by rw [hwin]; exact ih2, ?_, ?_⟩
      · intro s hs
        exact ih3 s (by rw [← hwin]; exact hs)
      · intro s hs
        by_cases hseq : s = seat
        · subst hseq
          rw [getD_set_same hseatlt]
          constructor
          · intro hmem
            exact absurd hmem hseatnw
          · intro hnil
            exact absurd (congrArg List.length hnil) (by simpa using hemp)
        · rw [getD_set_other (fun h => hseq h.symm)]
          rw [hwin, hpl]
          exact ih4 s hs
  | pass Ga Gc seat hR0 hseat hok ih =>
    obtain ⟨hpl, hdisc, hwin, hrem, hhs⟩ := passMove_ok_fields hok
    rw [hpl, hwin]
    exact ih

/-- Claim C8. When an accepted play empties the acting seat's hand, that
seat is appended to `winners` (and, the hand having been non-empty before
and `winners` duplicate-free in every reachable state, now appears there
exactly once), `lastPlay` is cleared, and every subsequent next-seat
computation skips the seat. -/
theorem winner_recorded (G G' : State) (seat : Nat) (cards : List Card)
    (hR : Reachable G) (hseat : seat < 4)
    (hok : playMove G seat cards = .ok G')
    (hemp : G'.players.getD seat [] = []) :
    G'.winners = G.winners ++ [seat] ∧ G'.lastPlay = none ∧
    G'.winners.count seat = 1 ∧
    (∀ pos n, getNext G'.winners pos = some n → n ≠ seat) := by
  obtain ⟨inv1, inv2, inv3, inv4⟩ := reachable_invariants G hR
  obtain ⟨Gb, hpl, hdisc, hwin, hrem, hfin, hall, v, hv⟩ := playMove_ok_shape hok
  rw [finishPlay_spec] at hfin
  injection hfin with hfin
  subst hfin
  have hhand_ne : G.players.getD seat [] ≠ [] := by
    obtain ⟨c0, hc0⟩ :=
      List.exists_mem_of_ne_nil _ (value_some_cards_ne_nil hv)
    have hcont := (List.all_eq_true.mp hall) c0 hc0
    intro he
    rw [he] at hcont
    simp at hcont
  have hseatlt : seat < Gb.players.length := by
    rw [hpl, inv1]
    exact hseat
  have hr1 : (removeCards (Gb.players.getD seat [])
      (Play.make cards (some seat)).cards).1 = [] := by
    rw [← getD_set_same hseatlt (removeCards (Gb.players.getD seat [])
      (Play.make cards (some seat)).cards).1]
    exact hemp
  have hr1len : (removeCards (Gb.players.getD seat [])
      (Play.make cards (some seat)).cards).1.length = 0 := by
    rw [hr1]
    rfl
  have hseatnw : seat ∉ G.winners := by
    intro hmem
    exact hhand_ne ((inv4 seat hseat).mp hmem)
  refine ⟨?_, ?_, ?_, ?_⟩
  · simp only [hr1len, reduceIte]
    rw [hwin]
  · simp only [hr1len, reduceIte]
  · simp only [hr1len, reduceIte, hwin]
    rw [List.count_append]
    rw [List.count_eq_zero.mpr (by simpa using hseatnw)]
    simp
  · intro pos n hn
    have hnot := getNextFuel_not_winner hn
    intro hns
    subst hns
    apply hnot
    simp only [hr1len, reduceIte, hwin]
    simp

def okState (r : MoveResult) (fallback : State) : State :=
  match r with
  | .ok G => G
  | .invalid => fallback

def traceQuad1 : List Card := [⟨'3', 'C'⟩, ⟨'3', 'S'⟩, ⟨'3', 'H'⟩, ⟨'3', 'D'⟩, ⟨'6', 'C'⟩]
def traceQuad2 : List Card := [⟨'4', 'C'⟩, ⟨'4', 'S'⟩, ⟨'4', 'H'⟩, ⟨'4', 'D'⟩, ⟨'5', 'C'⟩]
def traceTrio : List Card := [⟨'5', 'S'⟩, ⟨'5', 'H'⟩, ⟨'5', 'D'⟩]

def traceW0 : State := setup Card.newDeck
def traceW1 : State := okState (playMove traceW0 0 traceQuad1) traceW0
def traceW2 : State := okState (playMove traceW1 0 traceQuad2) traceW1
def traceW3 : State :=
  match passMove traceW2 3 with
  | some (.ok G) => G
  | _ => traceW2
def traceW4 : State := okState (playMove traceW3 0 traceTrio) traceW3

/-- Witness for C8: starting from the unshuffled deck, seat 0 sheds its
13 cards as quadro `3333+6C`, quadro `4444+5C` (after which seat 3's pass
returns the lead), and trio `555`; seat 0 is then the sole winner. -/
theorem winner_recorded_witness :
    traceW4.winners = [0] ∧ traceW4.lastPlay = none ∧ traceW4.winners.count 0 = 1 := by
  have r0 : Reachable traceW0 := Reachable.setup Card.newDeck (List.Perm.refl _)
  have r1 : Reachable traceW1 :=
    Reachable.play traceW0 traceW1 0 traceQuad1 r0 (by omega) (by decide)
  have r2 : Reachable traceW2 :=
    Reachable.play traceW1 traceW2 0 traceQuad2 r1 (by omega) (by decide)
  have r3 : Reachable traceW3 :=
    Reachable.pass traceW2 traceW3 3 r2 (by omega) (by decide)
  have h := winner_recorded traceW3 traceW4 0 traceTrio r3 (by omega) (by decide) (by decide)
  refine ⟨?_, h.2.1, h.2.2.1⟩
  rw [h.1]
  decide

/-- Witness for C4 at the unshuffled deal: the four dealt hands (and the
empty discard pile) are a permutation of the fresh deck. -/
theorem deck_conservation_witness :
    ((setup Card.newDeck).players.flatten ++
      (setup Card.newDeck).discarded.flatten).Perm Card.newDeck :=
  (deck_conservation _ (Reachable.setup Card.newDeck (List.Perm.refl _))).1
